import Mathlib

/-!
Verification of the `tspawn` crate: a shared mutable container `A<T>`
(wrapping `Arc<RwLock<T>>`, src/src/a.rs) and the variadic task-launch
binding protocol `tspawn!`/`tspawn_internal!` (src/src/lib.rs).

The embedding has four layers:
* a value-level model of `A<T>` and its sequential operations
  (`get`, `geto`, `set`, `update`);
* a store/handle model of the heap of shared cells, under which
  `Clone for A` (`Arc::clone`) yields a handle to the same cell;
* a token-level model of the recursive `tspawn_internal!` expansion,
  which accumulates clone statements and lock statements and finally
  emits `tokio::spawn` of the body, together with an action trace and a
  binding environment;
* state machines for the reader/writer lock discipline of the underlying
  lock primitive and for interleaved concurrent `update` calls.
-/

namespace Tspawn

/-! ### Value-level model of `A<T>` (src/src/a.rs)

`A<T>` holds `value: Arc<RwLock<T>>`.  At the value level, sequentially,
a cell is just its protected value; each operation acquires the needed
lock, acts, and releases before returning (the lock discipline itself is
modelled separately below). -/

/-- The shared cell `A<T>`: one protected value of type `T`
(`pub struct A<T> { value: Arc<RwLock<T>> }`). -/
structure A (T : Type) : Type where
  value : T
  deriving DecidableEq

/-- Source `A::new`: wrap the value in a fresh shared lock allocation. -/
def A.new {T : Type} (value : T) : A T := ⟨value⟩

/-- Source `A::get`: `self.value.read().clone()` — acquire a read lock, clone the
protected value out, release. -/
def A.get {T : Type} (a : A T) : T := a.value

/-- Source `A::geto`: `self.value.read().clone().into()` — the `Into<Option<T>>`
conversion of a `T` produces `Some`. -/
def A.geto {T : Type} (a : A T) : Option T := some a.value

/-- Source `A::set`: `*self.value.write() = value` — acquire a write lock,
overwrite the protected value, release. -/
def A.set {T : Type} (_ : A T) (value : T) : A T := ⟨value⟩

/-- Source `A::update`: acquire a write lock, run `f` on a mutable reference to
the protected value, release after `f` returns. -/
def A.update {T : Type} (a : A T) (f : T → T) : A T := ⟨f a.value⟩

/-- A completed whole-value mutation on a cell: `A::set` or `A::update`. -/
inductive MutOp (T : Type) : Type
  | set (v : T)
  | update (f : T → T)

/-- Apply one completed mutation to a cell. -/
def applyMutOp {T : Type} (a : A T) : MutOp T → A T
  | .set v => a.set v
  | .update f => a.update f

/-- Run a finite sequence of completed `set`/`update` calls, one after the
other. -/
def runOps {T : Type} (ops : List (MutOp T)) (a : A T) : A T :=
  ops.foldl applyMutOp a

/-! ### Store/handle model of shared cells

`A<T>` handles are reference-counted pointers (`Arc`) into a heap of
cells; we model the heap as a list of protected values and a handle as an
index.  `Clone for A` is `Arc::clone(&self.value)`: the new handle points
at the very same allocation, so at the store level cloning a handle is
the identity on the index. -/

/-- A handle to a shared cell: an index into the heap of cells. -/
abbrev Handle : Type := Nat

/-- The heap of shared cells currently allocated. -/
structure Store (T : Type) : Type where
  cells : List T
  deriving DecidableEq

/-- Source `Clone for A`: `Arc::clone(&self.value)` — the clone refers to the
same underlying allocation, so the handle's cell index is unchanged. -/
def cloneA (h : Handle) : Handle := h

/-- Running `A::new` against the heap: allocate a fresh cell holding `v` and
return a handle to it. -/
def Store.newA {T : Type} (s : Store T) (v : T) : Store T × Handle :=
  (⟨s.cells ++ [v]⟩, s.cells.length)

/-- Running `A::get` through a handle: read the cell the handle points at
(`none` only for a dangling index, which `A::new` never produces). -/
def Store.getA {T : Type} (s : Store T) (h : Handle) : Option T :=
  s.cells[h]?

/-- Running `A::get` as a heap transformer: it acquires a read lock, clones the
value and releases; the heap is left untouched. -/
def Store.runGet {T : Type} (s : Store T) (h : Handle) : Option T × Store T :=
  (s.cells[h]?, s)

/-- Running `A::geto` as a heap transformer: `get` followed by the `Some`
conversion; the heap is left untouched. -/
def Store.runGeto {T : Type} (s : Store T) (h : Handle) : Option (Option T) × Store T :=
  ((s.cells[h]?).map some, s)

/-- Running `A::set` through a handle: overwrite the cell the handle points at. -/
def Store.setA {T : Type} (s : Store T) (h : Handle) (v : T) : Store T :=
  ⟨s.cells.set h v⟩

/-! ### C2, C3, C9 -/

/-- C2: for every cell and every finite sequence of completed `set` and
`update` calls applied sequentially, a subsequent `get` returns exactly
the value established by the most recent completed call: after `set v`
it returns `v`; after `update f` it returns `f` applied to the value the
previous calls established; and with no calls at all it returns the
initial value (each `MutOp` is a single atomic mutation in this model, so
no partially applied mutation is observable). -/
theorem c2_sequential_consistency {T : Type} (a : A T) (ops : List (MutOp T)) :
    (∀ v : T, (runOps (ops ++ [MutOp.set v]) a).get = v) ∧
    (∀ f : T → T, (runOps (ops ++ [MutOp.update f]) a).get = f (runOps ops a).get) ∧
    (runOps [] a).get = a.get := by
  refine ⟨fun v => ?_, fun f => ?_, rfl⟩ <;>
    simp [runOps, List.foldl_append, applyMutOp, A.set, A.update, A.get]

/-- C3: duplication is referentially transparent: cloning a handle yields
a handle to the same cell, so a clone's `get` agrees with the original's
`get`, and a `set` performed through either handle is observed through
the other. -/
theorem c3_clone_referential_transparency {T : Type} (s : Store T) (h : Handle)
    (v : T) (hh : h < s.cells.length) :
    Store.getA s (cloneA h) = Store.getA s h ∧
    Store.getA (Store.setA s (cloneA h) v) h = some v ∧
    Store.getA (Store.setA s h v) (cloneA h) = some v := by
  refine ⟨rfl, ?_, ?_⟩ <;>
    simp [Store.getA, Store.setA, cloneA, List.getElem?_set_self, hh]

/-- Witness for C3 at a concrete one-cell heap. -/
theorem c3_clone_referential_transparency_witness :
    (0 : Handle) < (Store.mk [(5 : Nat)]).cells.length ∧
    (Store.getA (Store.mk [(5 : Nat)]) (cloneA 0) = Store.getA (Store.mk [5]) 0 ∧
      Store.getA (Store.setA (Store.mk [5]) (cloneA 0) 7) 0 = some 7 ∧
      Store.getA (Store.setA (Store.mk [5]) 0 7) (cloneA 0) = some 7) :=
  ⟨by decide, c3_clone_referential_transparency (Store.mk [5]) 0 7 (by decide)⟩

/-- C9: `geto` returns exactly `some` of the snapshot `get` returns and is
never `none`; and, as heap transformers, neither `get` nor `geto` mutates
the stored value. -/
theorem c9_geto_is_some_get {T : Type} (a : A T) (s : Store T) (h : Handle) :
    A.geto a = some (A.get a) ∧
    (A.geto a).isSome = true ∧
    (Store.runGet s h).2 = s ∧
    (Store.runGeto s h).2 = s ∧
    (Store.runGet s h).1 = Store.getA s h := by
  exact ⟨rfl, rfl, rfl, rfl, rfl⟩

/-! ### Token-level model of `tspawn!` / `tspawn_internal!` (src/src/lib.rs)

`tspawn!($($input)*)` calls `tspawn_internal!(@parse [] [] $($input)*)`.
The internal macro walks the `(modifier, variable)` tokens, appending
`let $var = ::core::clone::Clone::clone(&$var);` to the clone
accumulator for every variable, and for `ref`/`mut` additionally
appending `let $var = $var.read();` / `let mut $var = $var.write();` to
the lock accumulator; the base case emits
`$($clone)* tokio::spawn({ $($lock)* async move $body })`. -/

/-- The three variable modifiers accepted by `tspawn!`: bare (`$var`),
`ref $var`, `mut $var`. -/
inductive Mod : Type
  | bare
  | ref
  | mut
  deriving DecidableEq

/-- A lock statement accumulated by `tspawn_internal!`:
`let $var = $var.read();` or `let mut $var = $var.write();`. -/
inductive LockStmt (V : Type) : Type
  | readLock (v : V)
  | writeLock (v : V)
  deriving DecidableEq

/-- The code emitted by the base case of `tspawn_internal!`:
the clone statements (in emission order), then
`tokio::spawn({ lock statements (in emission order); async move body })`. -/
structure TaskExpr (V B : Type) : Type where
  clones : List V
  locks : List (LockStmt V)
  body : B
  deriving DecidableEq

/-- Source `tspawn_internal!(@parse [cloneAcc] [lockAcc] vars… body)`: one rule
per modifier, each appending a clone statement and (for `ref`/`mut`) a
lock statement, and the base case emitting the task expression. -/
def tspawn_internal {V B : Type} (cloneAcc : List V) (lockAcc : List (LockStmt V)) :
    List (Mod × V) → B → TaskExpr V B
  | [], body => ⟨cloneAcc, lockAcc, body⟩
  | (Mod.bare, v) :: rest, body =>
      tspawn_internal (cloneAcc ++ [v]) lockAcc rest body
  | (Mod.ref, v) :: rest, body =>
      tspawn_internal (cloneAcc ++ [v]) (lockAcc ++ [LockStmt.readLock v]) rest body
  | (Mod.mut, v) :: rest, body =>
      tspawn_internal (cloneAcc ++ [v]) (lockAcc ++ [LockStmt.writeLock v]) rest body

/-- Source `tspawn!`: the entry point starts the parse with both accumulators
empty. -/
def tspawn {V B : Type} (vars : List (Mod × V)) (body : B) : TaskExpr V B :=
  tspawn_internal [] [] vars body

/-- The lock statement a single `(modifier, variable)` pair contributes:
nothing for bare, a read acquisition for `ref`, a write acquisition for
`mut`. -/
def lockStmtOf {V : Type} : Mod × V → Option (LockStmt V)
  | (Mod.bare, _) => none
  | (Mod.ref, v) => some (LockStmt.readLock v)
  | (Mod.mut, v) => some (LockStmt.writeLock v)

/-- The observable actions a launch performs, in program order. -/
inductive Action (V : Type) : Type
  | dup (v : V)
  | acqRead (v : V)
  | acqWrite (v : V)
  | handOff
  | runBody
  deriving DecidableEq

/-- The action a lock statement performs when it executes. -/
def LockStmt.action {V : Type} : LockStmt V → Action V
  | .readLock v => .acqRead v
  | .writeLock v => .acqWrite v

/-- The variable a lock statement binds. -/
def LockStmt.var {V : Type} : LockStmt V → V
  | .readLock v => v
  | .writeLock v => v

/-- The execution order of the emitted expression: the clone statements
run at the expansion site, then the block argument of `tokio::spawn` runs
its lock statements, then the constructed future is handed to the
scheduler, and the body runs inside the spawned task. -/
def TaskExpr.trace {V B : Type} (t : TaskExpr V B) : List (Action V) :=
  t.clones.map Action.dup ++ t.locks.map LockStmt.action ++
    [Action.handOff, Action.runBody]

/-- What a variable name is bound to when the body starts executing. -/
inductive Binding : Type
  | ownedDup
  | readGuard
  | writeGuard
  deriving DecidableEq

/-- The binding the body sees for a variable declared with a given
modifier. -/
def Mod.binding : Mod → Binding
  | .bare => .ownedDup
  | .ref => .readGuard
  | .mut => .writeGuard

/-- Rebind one name in a binding environment (a `let` shadowing it). -/
def updEnv {V : Type} [DecidableEq V] (e : V → Option Binding) (v : V)
    (b : Binding) : V → Option Binding :=
  fun x => if x = v then some b else e x

/-- The binding a lock statement establishes for its variable. -/
def LockStmt.binding {V : Type} : LockStmt V → Binding
  | .readLock _ => .readGuard
  | .writeLock _ => .writeGuard

/-- Execute one clone statement on a binding environment: its variable is
(re)bound to an owned duplicate. -/
def applyCloneStmt {V : Type} [DecidableEq V] (e : V → Option Binding) (v : V) :
    V → Option Binding :=
  updEnv e v .ownedDup

/-- Execute one lock statement on a binding environment: its variable is
rebound to the guard the statement acquires. -/
def applyLockStmt {V : Type} [DecidableEq V] (e : V → Option Binding)
    (s : LockStmt V) : V → Option Binding :=
  updEnv e s.var s.binding

/-- The binding environment the body sees: every clone statement binds
its variable to an owned duplicate, then every lock statement rebinds its
variable to the corresponding guard, in statement order. -/
def TaskExpr.env {V B : Type} [DecidableEq V] (t : TaskExpr V B) :
    V → Option Binding :=
  t.locks.foldl applyLockStmt (t.clones.foldl applyCloneStmt (fun _ => none))

/-- Submitting a body directly to the scheduler (`tokio::spawn` of the
body alone): no clone statements, no lock statements. -/
def spawnDirect {V B : Type} (body : B) : TaskExpr V B := ⟨[], [], body⟩

/-- Accumulator lemma: the parse of `tspawn_internal!` appends, to
whatever is already accumulated, one clone per variable in declaration
order and the lock statements of the `ref`/`mut` variables in declaration
order, and passes the body through unchanged. -/
theorem tspawn_internal_eq {V B : Type} (vars : List (Mod × V)) :
    ∀ (cloneAcc : List V) (lockAcc : List (LockStmt V)) (body : B),
      tspawn_internal cloneAcc lockAcc vars body =
        ⟨cloneAcc ++ vars.map Prod.snd, lockAcc ++ vars.filterMap lockStmtOf, body⟩ := by
  induction vars with
  | nil => intro cloneAcc lockAcc body; simp [tspawn_internal]
  | cons p rest ih =>
      intro cloneAcc lockAcc body
      obtain ⟨m, v⟩ := p
      cases m <;> simp [tspawn_internal, ih, lockStmtOf]

/-- The emitted task of `tspawn!`: clones in declaration order, locks of
the `ref`/`mut` variables in declaration order, the body unchanged. -/
theorem tspawn_eq {V B : Type} (vars : List (Mod × V)) (body : B) :
    tspawn vars body = ⟨vars.map Prod.snd, vars.filterMap lockStmtOf, body⟩ := by
  simpa using tspawn_internal_eq vars [] [] body

/-- Folding the clone statements binds exactly the cloned variables to
owned duplicates, leaving every other name as it was. -/
theorem cloneFold_apply {V : Type} [DecidableEq V] (clones : List V) :
    ∀ (e : V → Option Binding) (x : V),
      (clones.foldl applyCloneStmt e) x =
        if x ∈ clones then some Binding.ownedDup else e x := by
  induction clones with
  | nil => intro e x; simp
  | cons c cs ih =>
      intro e x
      rw [List.foldl_cons, ih]
      by_cases hx : x ∈ cs
      · simp [hx]
      · by_cases hc : x = c <;> simp [hx, hc, applyCloneStmt, updEnv]

/-- A name no lock statement mentions keeps its binding through the lock
statements. -/
theorem lockFold_apply_notMem {V : Type} [DecidableEq V] (locks : List (LockStmt V)) :
    ∀ (e : V → Option Binding) (x : V), x ∉ locks.map LockStmt.var →
      (locks.foldl applyLockStmt e) x = e x := by
  induction locks with
  | nil => intro e x _; rfl
  | cons s ss ih =>
      intro e x hx
      rw [List.map_cons, List.mem_cons] at hx
      push_neg at hx
      rw [List.foldl_cons, ih _ _ hx.2]
      simp [applyLockStmt, updEnv, hx.1]

/-- When no two lock statements mention the same variable, each lock
statement's variable ends bound to that statement's guard. -/
theorem lockFold_apply_mem {V : Type} [DecidableEq V] (locks : List (LockStmt V)) :
    ∀ (e : V → Option Binding) (s : LockStmt V),
      (locks.map LockStmt.var).Nodup → s ∈ locks →
      (locks.foldl applyLockStmt e) s.var = some s.binding := by
  induction locks with
  | nil => intro e s _ hs; cases hs
  | cons t ts ih =>
      intro e s hnd hs
      rw [List.map_cons, List.nodup_cons] at hnd
      rcases List.mem_cons.mp hs with h | h
      · subst h
        rw [List.foldl_cons, lockFold_apply_notMem ts _ _ hnd.1]
        simp [applyLockStmt, updEnv]
      · exact ih _ s hnd.2 h

/-- The variables of the emitted lock statements form a sublist of the
declared variable list. -/
theorem lockVars_sublist {V : Type} (vars : List (Mod × V)) :
    ((vars.filterMap lockStmtOf).map LockStmt.var).Sublist (vars.map Prod.snd) := by
  induction vars with
  | nil => simp
  | cons p rest ih =>
      obtain ⟨m, v⟩ := p
      cases m
      · simpa [lockStmtOf] using ih.cons v
      · simpa [lockStmtOf, LockStmt.var] using ih.cons₂ v
      · simpa [lockStmtOf, LockStmt.var] using ih.cons₂ v

/-- With distinct declared variable names, a bare variable contributes no
lock statement at all. -/
theorem bare_var_notMem_lockVars {V : Type} [DecidableEq V] (vars : List (Mod × V))
    (v : V) (hnd : (vars.map Prod.snd).Nodup) (hv : (Mod.bare, v) ∈ vars) :
    v ∉ (vars.filterMap lockStmtOf).map LockStmt.var := by
  intro hmem
  rw [List.mem_map] at hmem
  obtain ⟨s, hs, hsv⟩ := hmem
  rw [List.mem_filterMap] at hs
  obtain ⟨⟨m, w⟩, hmem, hstmt⟩ := hs
  have hwv : w = v := by cases m <;> simp [lockStmtOf] at hstmt <;>
    simpa [← hstmt, LockStmt.var] using hsv
  subst hwv
  have := List.inj_on_of_nodup_map hnd hv hmem rfl
  rw [← this] at hstmt
  simp [lockStmtOf] at hstmt

/-- C1: for every variadic launch invocation, the emitted task performs
the duplicates of all listed variables in declaration order, then the
lock acquisitions in declaration order — none for a bare variable, a read
acquisition for `ref`, a write acquisition for `mut` — then hands off and
runs the body, in which (for distinct variable names) each variable is
bound to its owned duplicate, read guard, or write guard according to its
modifier. -/
theorem c1_binding_protocol {V B : Type} [DecidableEq V] (vars : List (Mod × V))
    (body : B) (hnd : (vars.map Prod.snd).Nodup) :
    (tspawn vars body).clones = vars.map Prod.snd ∧
    (tspawn vars body).locks = vars.filterMap lockStmtOf ∧
    (tspawn vars body).body = body ∧
    (tspawn vars body).trace =
      (vars.map Prod.snd).map Action.dup ++
        (vars.filterMap lockStmtOf).map LockStmt.action ++
        [Action.handOff, Action.runBody] ∧
    ∀ m v, (m, v) ∈ vars → (tspawn vars body).env v = some m.binding := by
  rw [tspawn_eq]
  refine ⟨rfl, rfl, rfl, rfl, ?_⟩
  intro m v hmem
  have hclone : v ∈ vars.map Prod.snd := List.mem_map.mpr ⟨(m, v), hmem, rfl⟩
  have hlockNd : ((vars.filterMap lockStmtOf).map LockStmt.var).Nodup :=
    hnd.sublist (lockVars_sublist vars)
  cases m
  · rw [TaskExpr.env, lockFold_apply_notMem _ _ _
      (bare_var_notMem_lockVars vars v hnd hmem), cloneFold_apply]
    simp [hclone, Mod.binding]
  · have hs : LockStmt.readLock v ∈ vars.filterMap lockStmtOf :=
      List.mem_filterMap.mpr ⟨(Mod.ref, v), hmem, rfl⟩
    have := lockFold_apply_mem (vars.filterMap lockStmtOf)
      (List.foldl applyCloneStmt (fun _ => none) (vars.map Prod.snd))
      (LockStmt.readLock v) hlockNd hs
    simpa [TaskExpr.env, LockStmt.var, LockStmt.binding, Mod.binding] using this
  · have hs : LockStmt.writeLock v ∈ vars.filterMap lockStmtOf :=
      List.mem_filterMap.mpr ⟨(Mod.mut, v), hmem, rfl⟩
    have := lockFold_apply_mem (vars.filterMap lockStmtOf)
      (List.foldl applyCloneStmt (fun _ => none) (vars.map Prod.snd))
      (LockStmt.writeLock v) hlockNd hs
    simpa [TaskExpr.env, LockStmt.var, LockStmt.binding, Mod.binding] using this

/-- Witness for C1 at the concrete launch
`tspawn!(a, ref b, mut c, body)` with `a, b, c` encoded as `0, 1, 2`. -/
theorem c1_binding_protocol_witness :
    (([(Mod.bare, (0 : Nat)), (Mod.ref, 1), (Mod.mut, 2)].map Prod.snd).Nodup) ∧
    ((tspawn [(Mod.bare, (0 : Nat)), (Mod.ref, 1), (Mod.mut, 2)] ()).clones =
        [(Mod.bare, (0 : Nat)), (Mod.ref, 1), (Mod.mut, 2)].map Prod.snd ∧
      (tspawn [(Mod.bare, (0 : Nat)), (Mod.ref, 1), (Mod.mut, 2)] ()).locks =
        [(Mod.bare, (0 : Nat)), (Mod.ref, 1), (Mod.mut, 2)].filterMap lockStmtOf ∧
      (tspawn [(Mod.bare, (0 : Nat)), (Mod.ref, 1), (Mod.mut, 2)] ()).body = () ∧
      (tspawn [(Mod.bare, (0 : Nat)), (Mod.ref, 1), (Mod.mut, 2)] ()).trace =
        ([(Mod.bare, (0 : Nat)), (Mod.ref, 1), (Mod.mut, 2)].map Prod.snd).map Action.dup ++
          ([(Mod.bare, (0 : Nat)), (Mod.ref, 1), (Mod.mut, 2)].filterMap lockStmtOf).map
            LockStmt.action ++ [Action.handOff, Action.runBody] ∧
      ∀ m v, (m, v) ∈ [(Mod.bare, (0 : Nat)), (Mod.ref, 1), (Mod.mut, 2)] →
        (tspawn [(Mod.bare, (0 : Nat)), (Mod.ref, 1), (Mod.mut, 2)] ()).env v =
          some m.binding) :=
  ⟨by decide, c1_binding_protocol [(Mod.bare, 0), (Mod.ref, 1), (Mod.mut, 2)] () (by decide)⟩

/-- The trace is the clone actions, then the lock actions, then hand-off
and body. -/
theorem trace_eq_append {V B : Type} (t : TaskExpr V B) :
    t.trace = (t.clones.map Action.dup ++ t.locks.map LockStmt.action) ++
      [Action.handOff, Action.runBody] := by
  simp [TaskExpr.trace]

/-- The hand-off to the scheduler sits right after all clone and lock
actions. -/
theorem trace_getElem_handOff {V B : Type} (t : TaskExpr V B) :
    t.trace[t.clones.length + t.locks.length]? = some Action.handOff := by
  rw [trace_eq_append, List.getElem?_append_right (by simp)]
  simp

/-- Trace positions before the clone count are clone actions. -/
theorem trace_getElem_clones {V B : Type} (t : TaskExpr V B) (i : Nat)
    (hi : i < t.clones.length) :
    t.trace[i]? = (t.clones[i]?).map Action.dup := by
  rw [trace_eq_append, List.getElem?_append, if_pos (by simp; omega),
    List.getElem?_append, if_pos (by simpa using hi)]
  exact List.getElem?_map _ _ _

/-- Trace positions between the clone count and the hand-off are lock
actions. -/
theorem trace_getElem_locks {V B : Type} (t : TaskExpr V B) (i : Nat)
    (h1 : t.clones.length ≤ i) (h2 : i < t.clones.length + t.locks.length) :
    t.trace[i]? = (t.locks[i - t.clones.length]?).map LockStmt.action := by
  rw [trace_eq_append, List.getElem?_append, if_pos (by simp; omega),
    List.getElem?_append_right (by simpa using h1), List.getElem?_map]
  simp

/-- Trace positions from the hand-off on are the hand-off and the body
run. -/
theorem trace_getElem_tail {V B : Type} (t : TaskExpr V B) (i : Nat)
    (h : t.clones.length + t.locks.length ≤ i) :
    t.trace[i]? =
      ([Action.handOff, Action.runBody] :
        List (Action V))[i - (t.clones.length + t.locks.length)]? := by
  rw [trace_eq_append, List.getElem?_append_right (by simpa using h)]
  simp

/-- A lock statement's action mentions exactly its variable. -/
theorem action_var_of_lock {V : Type} (s : LockStmt V) (v : V)
    (h : s.action = Action.acqRead v ∨ s.action = Action.acqWrite v) :
    s.var = v := by
  cases s <;> rcases h with h | h <;>
    simp_all [LockStmt.action, LockStmt.var]

/-- C4: in every launch, every duplicate and lock acquisition action sits
strictly before the hand-off to the external scheduler, and every lock
acquisition on a variable's duplicate is strictly preceded by the
duplicate action for that variable. -/
theorem c4_dup_before_lock_before_handoff {V B : Type} (vars : List (Mod × V))
    (body : B) (i : Nat) (v : V)
    (h : (tspawn vars body).trace[i]? = some (Action.dup v) ∨
      (tspawn vars body).trace[i]? = some (Action.acqRead v) ∨
      (tspawn vars body).trace[i]? = some (Action.acqWrite v)) :
    ((tspawn vars body).trace[i]? = some (Action.acqRead v) ∨
        (tspawn vars body).trace[i]? = some (Action.acqWrite v) →
      ∃ j, j < i ∧ (tspawn vars body).trace[j]? = some (Action.dup v)) ∧
    i < (tspawn vars body).clones.length + (tspawn vars body).locks.length ∧
    (tspawn vars body).trace[(tspawn vars body).clones.length +
      (tspawn vars body).locks.length]? = some Action.handOff := by
  have hlt : i < (tspawn vars body).clones.length + (tspawn vars body).locks.length := by
    by_contra hge
    push_neg at hge
    have htail := trace_getElem_tail (tspawn vars body) i hge
    rcases h with h | h | h <;> rw [htail] at h <;>
      · have := List.getElem?_mem h
        simp at this
  refine ⟨?_, hlt, trace_getElem_handOff _⟩
  intro hacq
  have hge : (tspawn vars body).clones.length ≤ i := by
    by_contra hlt2
    push_neg at hlt2
    have hcl := trace_getElem_clones (tspawn vars body) i hlt2
    rcases hacq with h' | h' <;> rw [hcl] at h' <;>
      · obtain ⟨c, -, hc⟩ := Option.map_eq_some'.mp h'
        cases hc
  have hmid := trace_getElem_locks (tspawn vars body) i hge hlt
  have hex : ∃ st : LockStmt V,
      (tspawn vars body).locks[i - (tspawn vars body).clones.length]? = some st ∧
      (st.action = Action.acqRead v ∨ st.action = Action.acqWrite v) := by
    rcases hacq with h' | h' <;> rw [hmid] at h'
    · obtain ⟨st, hst, hact⟩ := Option.map_eq_some'.mp h'
      exact ⟨st, hst, Or.inl hact⟩
    · obtain ⟨st, hst, hact⟩ := Option.map_eq_some'.mp h'
      exact ⟨st, hst, Or.inr hact⟩
  obtain ⟨st, hst, hact⟩ := hex
  have hvar : st.var = v := action_var_of_lock st v hact
  have hvmem : v ∈ (tspawn vars body).clones := by
    have hml : st.var ∈ (tspawn vars body).locks.map LockStmt.var :=
      List.mem_map.mpr ⟨st, List.getElem?_mem hst, rfl⟩
    rw [hvar] at hml
    have hsub : ((tspawn vars body).locks.map LockStmt.var).Sublist
        ((tspawn vars body).clones) := by
      rw [tspawn_eq]
      exact lockVars_sublist vars
    exact hsub.subset hml
  obtain ⟨j, hj, hjv⟩ := List.getElem_of_mem hvmem
  refine ⟨j, by omega, ?_⟩
  rw [trace_getElem_clones (tspawn vars body) j hj,
    List.getElem?_eq_getElem hj, hjv]
  rfl

/-- Witness for C4 at `tspawn!(mut v, body)` with the variable encoded as
`0`: the write acquisition at trace position 1. -/
theorem c4_dup_before_lock_before_handoff_witness :
    ((tspawn [(Mod.mut, (0 : Nat))] ()).trace[1]? = some (Action.dup 0) ∨
      (tspawn [(Mod.mut, (0 : Nat))] ()).trace[1]? = some (Action.acqRead 0) ∨
      (tspawn [(Mod.mut, (0 : Nat))] ()).trace[1]? = some (Action.acqWrite 0)) ∧
    (((tspawn [(Mod.mut, (0 : Nat))] ()).trace[1]? = some (Action.acqRead 0) ∨
        (tspawn [(Mod.mut, (0 : Nat))] ()).trace[1]? = some (Action.acqWrite 0) →
      ∃ j, j < 1 ∧ (tspawn [(Mod.mut, (0 : Nat))] ()).trace[j]? = some (Action.dup 0)) ∧
    1 < (tspawn [(Mod.mut, (0 : Nat))] ()).clones.length +
      (tspawn [(Mod.mut, (0 : Nat))] ()).locks.length ∧
    (tspawn [(Mod.mut, (0 : Nat))] ()).trace[(tspawn [(Mod.mut, (0 : Nat))] ()).clones.length +
      (tspawn [(Mod.mut, (0 : Nat))] ()).locks.length]? = some Action.handOff) :=
  ⟨by decide, c4_dup_before_lock_before_handoff [(Mod.mut, 0)] () 1 0 (by decide)⟩

/-- C6: a launch with an empty variable list emits no clone statements
and no lock statements; the resulting expression is exactly the direct
submission of the body to the scheduler, with the degenerate trace
hand-off-then-body. -/
theorem c6_empty_list_is_direct_spawn {V B : Type} (body : B) :
    tspawn ([] : List (Mod × V)) body = spawnDirect body ∧
    (tspawn ([] : List (Mod × V)) body).clones = [] ∧
    (tspawn ([] : List (Mod × V)) body).locks = [] ∧
    (tspawn ([] : List (Mod × V)) body).trace = (spawnDirect body : TaskExpr V B).trace ∧
    (spawnDirect body : TaskExpr V B).trace = [Action.handOff, Action.runBody] :=
  ⟨rfl, rfl, rfl, rfl, rfl⟩

/-! ### Caller scope across the expansion (C10)

The expansion is a block `{ let $var = Clone::clone(&$var); …
tokio::spawn({ … }) }`.  `Clone::clone(&$var)` borrows the caller's
handle, and each `let` binds a fresh name that shadows only inside the
block, so evaluating the block leaves the caller's environment intact. -/

/-- One clone statement `let $var = Clone::clone(&$var);` executed on a
name-to-handle environment: the shadowing binding denotes a clone of the
handle the name currently denotes. -/
def evalCloneStmt {V : Type} [DecidableEq V] (e : V → Option Handle) (v : V) :
    V → Option Handle :=
  fun x => if x = v then (e v).map cloneA else e x

/-- The environment in force inside the expansion block after its clone
statements ran, in emission order. -/
def innerEnv {V B : Type} [DecidableEq V] (e : V → Option Handle)
    (t : TaskExpr V B) : V → Option Handle :=
  t.clones.foldl evalCloneStmt e

/-- Evaluating the whole expansion block in a caller scope: the result is
the caller environment after the block (unchanged, since the block's
`let` bindings shadow only inside it and every statement only borrows),
the environment captured by the spawned task, and the emitted task. -/
def evalExpansion {V B : Type} [DecidableEq V] (e : V → Option Handle)
    (vars : List (Mod × V)) (body : B) :
    (V → Option Handle) × (V → Option Handle) × TaskExpr V B :=
  (e, innerEnv e (tspawn vars body), tspawn vars body)

/-- Cloning a handle never changes what any name denotes: each clone
statement rebinds its own name to a clone of the very handle it already
denoted, and a cloned handle is the same cell index. -/
theorem innerEnv_apply {V B : Type} [DecidableEq V] (t : TaskExpr V B) :
    ∀ (e : V → Option Handle) (x : V), innerEnv e t x = e x := by
  have hfold : ∀ (cs : List V) (e : V → Option Handle) (x : V),
      (cs.foldl evalCloneStmt e) x = e x := by
    intro cs
    induction cs with
    | nil => intro e x; rfl
    | cons c rest ih =>
        intro e x
        rw [List.foldl_cons, ih]
        by_cases hx : x = c <;>
          [cases hc : e c <;> simp [evalCloneStmt, hx, hc, cloneA];
            simp [evalCloneStmt, hx]]
  intro e x
  exact hfold t.clones e x

/-- C10: the launch clones rather than moves: after the expansion block
is evaluated, the caller's environment is unchanged, every listed name is
still bound to its original handle, and the handle the task captured for
it is a clone referring to the same underlying cell. -/
theorem c10_clone_not_move {V B : Type} [DecidableEq V] (e : V → Option Handle)
    (vars : List (Mod × V)) (body : B) (m : Mod) (v : V) (hdl : Handle)
    (_hmem : (m, v) ∈ vars) (he : e v = some hdl) :
    (evalExpansion e vars body).1 = e ∧
    (evalExpansion e vars body).1 v = some hdl ∧
    (evalExpansion e vars body).2.1 v = some (cloneA hdl) ∧
    cloneA hdl = hdl ∧
    ∀ (T : Type) (s : Store T), Store.getA s (cloneA hdl) = Store.getA s hdl := by
  refine ⟨rfl, he, ?_, rfl, fun T s => rfl⟩
  show innerEnv e (tspawn vars body) v = some (cloneA hdl)
  rw [innerEnv_apply, he]
  rfl

/-- Witness for C10 at `tspawn!(mut v, body)` with the name `v` encoded
as `0`, denoting handle `0`. -/
theorem c10_clone_not_move_witness :
    ((Mod.mut, (0 : Nat)) ∈ [(Mod.mut, (0 : Nat))] ∧
      (fun x : Nat => if x = 0 then some (0 : Handle) else none) 0 = some 0) ∧
    ((evalExpansion (fun x : Nat => if x = 0 then some (0 : Handle) else none)
        [(Mod.mut, (0 : Nat))] ()).1 =
        (fun x : Nat => if x = 0 then some (0 : Handle) else none) ∧
      (evalExpansion (fun x : Nat => if x = 0 then some (0 : Handle) else none)
        [(Mod.mut, (0 : Nat))] ()).1 0 = some 0 ∧
      (evalExpansion (fun x : Nat => if x = 0 then some (0 : Handle) else none)
        [(Mod.mut, (0 : Nat))] ()).2.1 0 = some (cloneA 0) ∧
      cloneA 0 = 0 ∧
      ∀ (T : Type) (s : Store T), Store.getA s (cloneA 0) = Store.getA s 0) :=
  ⟨⟨by decide, rfl⟩,
    c10_clone_not_move (fun x : Nat => if x = 0 then some (0 : Handle) else none)
      [(Mod.mut, 0)] () Mod.mut 0 0 (by decide) rfl⟩

/-! ### Reader/writer lock discipline (C5, C8)

`A::read`/`A::write` return `self.value.read_arc()` /
`self.value.write_arc()`: guard creation and release are delegated to the
shared `RwLock`, an external collaborator of this crate.  Modelled from
the spec: classic multiple-reader/single-writer exclusion — a read guard
is created only while no write guard is live, a write guard only while no
guard at all is live, any held guard can be released at any time (release
is tied to guard lifetime, so it also happens on panic or abandonment: no
poisoning), and the protected value changes only under a live write
guard. -/

/-- A cell together with its lock occupancy: how many read guards and
write guards are currently live, and the protected value. -/
structure LSys (T : Type) : Type where
  readers : Nat
  writers : Nat
  value : T
  deriving DecidableEq

/-- One event on a cell: guard acquisition, guard release (normal or on
abandonment), or a store through a live write guard. -/
inductive LStep {T : Type} : LSys T → LSys T → Prop
  | acquireRead (s : LSys T) : s.writers = 0 →
      LStep s ⟨s.readers + 1, s.writers, s.value⟩
  | releaseRead (s : LSys T) : 0 < s.readers →
      LStep s ⟨s.readers - 1, s.writers, s.value⟩
  | acquireWrite (s : LSys T) : s.readers = 0 → s.writers = 0 →
      LStep s ⟨s.readers, s.writers + 1, s.value⟩
  | releaseWrite (s : LSys T) : 0 < s.writers →
      LStep s ⟨s.readers, s.writers - 1, s.value⟩
  | write (s : LSys T) (v : T) : 0 < s.writers →
      LStep s ⟨s.readers, s.writers, v⟩

/-- The states a cell created by `A::new v₀` can reach under any
interleaving of acquisitions, releases and writes. -/
inductive LReach {T : Type} (v₀ : T) : LSys T → Prop
  | init : LReach v₀ ⟨0, 0, v₀⟩
  | step {s t : LSys T} : LReach v₀ s → LStep s t → LReach v₀ t

/-- Inductive invariant of the lock: at most one write guard is live, and
readers and a writer are never live together. -/
theorem lreach_invariant {T : Type} {v₀ : T} {s : LSys T} (h : LReach v₀ s) :
    s.writers ≤ 1 ∧ (0 < s.writers → s.readers = 0) := by
  induction h with
  | init => simp
  | step _ hstep ih =>
      rcases ih with ⟨ih1, ih2⟩
      cases hstep <;> simp_all

/-- C5: in every reachable state of any interleaving of acquisitions and
releases, a read guard and a write guard are never simultaneously live,
and two write guards are never simultaneously live. -/
theorem c5_reader_writer_exclusion {T : Type} {v₀ : T} {s : LSys T}
    (h : LReach v₀ s) :
    (0 < s.readers → s.writers = 0) ∧ (0 < s.writers → s.readers = 0) ∧
    s.writers ≤ 1 := by
  obtain ⟨h1, h2⟩ := lreach_invariant h
  refine ⟨?_, h2, h1⟩
  intro hr
  rcases Nat.eq_zero_or_pos s.writers with h0 | hp
  · exact h0
  · omega

/-- Witness for C5 at the freshly created cell `A::new 0`. -/
theorem c5_reader_writer_exclusion_witness :
    LReach (0 : Nat) ⟨0, 0, 0⟩ ∧
    ((0 < (⟨0, 0, 0⟩ : LSys Nat).readers → (⟨0, 0, 0⟩ : LSys Nat).writers = 0) ∧
      (0 < (⟨0, 0, 0⟩ : LSys Nat).writers → (⟨0, 0, 0⟩ : LSys Nat).readers = 0) ∧
      (⟨0, 0, 0⟩ : LSys Nat).writers ≤ 1) :=
  ⟨LReach.init, c5_reader_writer_exclusion LReach.init⟩

/-- C8: the container operations return no error value (`geto` in
particular is always `some`), and there is no poisoning: from any
reachable state in which a body holds the write guard, abandoning or
panicking releases the guard as an ordinary release — the resulting state
is reachable, holds no guard at all, keeps the protected value exactly as
the failing body last left it (no rollback), and both a subsequent write
acquisition and a subsequent read acquisition are enabled transitions
(acquisition only ever waits for such an enabling, it never fails). -/
theorem c8_no_poisoning {T : Type} {v₀ : T} {s : LSys T} (h : LReach v₀ s)
    (hw : 0 < s.writers) :
    LStep s ⟨s.readers, s.writers - 1, s.value⟩ ∧
    (⟨s.readers, s.writers - 1, s.value⟩ : LSys T).writers = 0 ∧
    (⟨s.readers, s.writers - 1, s.value⟩ : LSys T).readers = 0 ∧
    (⟨s.readers, s.writers - 1, s.value⟩ : LSys T).value = s.value ∧
    LReach v₀ ⟨s.readers, s.writers - 1, s.value⟩ ∧
    LStep (⟨s.readers, s.writers - 1, s.value⟩ : LSys T)
      ⟨s.readers, s.writers - 1 + 1, s.value⟩ ∧
    LStep (⟨s.readers, s.writers - 1, s.value⟩ : LSys T)
      ⟨s.readers + 1, s.writers - 1, s.value⟩ ∧
    ∀ a : A T, (A.geto a).isSome = true := by
  obtain ⟨h1, h2⟩ := lreach_invariant h
  have hr0 : s.readers = 0 := h2 hw
  have hw1 : s.writers - 1 = 0 := by omega
  have hrel : LStep s ⟨s.readers, s.writers - 1, s.value⟩ := LStep.releaseWrite s hw
  refine ⟨hrel, hw1, hr0, rfl, LReach.step h hrel, ?_, ?_, fun a => rfl⟩
  · exact LStep.acquireWrite _ hr0 hw1
  · exact LStep.acquireRead _ hw1

/-- Witness for C8 at the state reached from `A::new 0` by one write
acquisition. -/
theorem c8_no_poisoning_witness :
    (LReach (0 : Nat) ⟨0, 1, 0⟩ ∧ 0 < (⟨0, 1, 0⟩ : LSys Nat).writers) ∧
    (LStep (⟨0, 1, 0⟩ : LSys Nat) ⟨0, 1 - 1, 0⟩ ∧
      (⟨0, 1 - 1, 0⟩ : LSys Nat).writers = 0 ∧
      (⟨0, 1 - 1, 0⟩ : LSys Nat).readers = 0 ∧
      (⟨0, 1 - 1, 0⟩ : LSys Nat).value = (⟨0, 1, 0⟩ : LSys Nat).value ∧
      LReach (0 : Nat) ⟨0, 1 - 1, 0⟩ ∧
      LStep (⟨0, 1 - 1, 0⟩ : LSys Nat) ⟨0, 1 - 1 + 1, 0⟩ ∧
      LStep (⟨0, 1 - 1, 0⟩ : LSys Nat) ⟨0 + 1, 1 - 1, 0⟩ ∧
      ∀ a : A Nat, (A.geto a).isSome = true) :=
  ⟨⟨LReach.step LReach.init (LStep.acquireWrite ⟨0, 0, 0⟩ rfl rfl), by decide⟩,
    c8_no_poisoning (LReach.step LReach.init (LStep.acquireWrite ⟨0, 0, 0⟩ rfl rfl))
      (by decide)⟩

/-! ### Concurrent `update` calls (C7)

`A::update` acquires the write lock, runs `f` on a mutable reference to
the protected value while holding the lock, and releases after `f`
returns.  Here `n` tasks each execute one such `update` on a cell; the
read-modify-write inside `f` is split into separate read and write
events, so the interleavings range over genuinely concurrent executions
constrained only by the write-lock exclusion the `update` body relies
on.  Modelled from the spec for the lock part: acquisition succeeds only
while nobody holds the lock. -/

/-- Where one updating task stands: not started; holding the write lock
before reading; holding it having read `l`; holding it having written
back; finished (lock released). -/
inductive TPc (T : Type) : Type
  | start
  | acquired
  | readv (l : T)
  | written
  | done
  deriving DecidableEq

/-- Whether a task at this position holds the write lock. -/
def TPc.holds {T : Type} : TPc T → Bool
  | .acquired => true
  | .readv _ => true
  | .written => true
  | _ => false

/-- Whether a task at this position has already written its mutation
back. -/
def TPc.wrote {T : Type} : TPc T → Bool
  | .written => true
  | .done => true
  | _ => false

/-- The cell value together with every task's position. -/
structure CSys (T : Type) (n : Nat) : Type where
  value : T
  pc : Fin n → TPc T

/-- Rebind one task's position. -/
def updPc {T : Type} {n : Nat} (pc : Fin n → TPc T) (i : Fin n) (p : TPc T) :
    Fin n → TPc T :=
  fun j => if j = i then p else pc j

/-- One interleaving event of the `n` updating tasks: a task acquires the
write lock (only while nobody holds it), reads the protected value,
writes back the mutated value, or releases the lock. -/
inductive CStep {T : Type} (f : T → T) {n : Nat} : CSys T n → CSys T n → Prop
  | acquire (s : CSys T n) (i : Fin n) : s.pc i = .start →
      (∀ j, (s.pc j).holds = false) →
      CStep f s ⟨s.value, updPc s.pc i .acquired⟩
  | readv (s : CSys T n) (i : Fin n) : s.pc i = .acquired →
      CStep f s ⟨s.value, updPc s.pc i (.readv s.value)⟩
  | writev (s : CSys T n) (i : Fin n) (l : T) : s.pc i = .readv l →
      CStep f s ⟨f l, updPc s.pc i .written⟩
  | release (s : CSys T n) (i : Fin n) : s.pc i = .written →
      CStep f s ⟨s.value, updPc s.pc i .done⟩

/-- All interleavings of `n` tasks each running `update f` once on a cell
created with initial value `v₀`. -/
inductive CReach {T : Type} (f : T → T) (v₀ : T) (n : Nat) : CSys T n → Prop
  | init : CReach f v₀ n ⟨v₀, fun _ => .start⟩
  | step {s t : CSys T n} : CReach f v₀ n s → CStep f s t → CReach f v₀ n t

/-- How many tasks have already written their mutation back. -/
def wroteCount {T : Type} {n : Nat} (s : CSys T n) : Nat :=
  (Finset.univ.filter fun i => (s.pc i).wrote = true).card

/-- Rebinding a task's position without changing its wrote-status leaves
the wrote count unchanged. -/
theorem wroteCount_updPc_eq {T : Type} {n : Nat} (v w : T) (pc : Fin n → TPc T)
    (i : Fin n) (p : TPc T) (hp : p.wrote = (pc i).wrote) :
    wroteCount (⟨v, updPc pc i p⟩ : CSys T n) = wroteCount (⟨w, pc⟩ : CSys T n) := by
  unfold wroteCount
  congr 1
  apply Finset.filter_congr
  intro j _
  by_cases hj : j = i
  · subst hj; simp [updPc, hp]
  · simp [updPc, hj]

/-- Rebinding a not-yet-written task to a written position raises the
wrote count by one. -/
theorem wroteCount_updPc_incr {T : Type} {n : Nat} (v w : T) (pc : Fin n → TPc T)
    (i : Fin n) (p : TPc T) (hp : p.wrote = true) (hold : (pc i).wrote = false) :
    wroteCount (⟨v, updPc pc i p⟩ : CSys T n) =
      wroteCount (⟨w, pc⟩ : CSys T n) + 1 := by
  unfold wroteCount
  have hset : (Finset.univ.filter fun j => ((updPc pc i p j).wrote = true)) =
      insert i (Finset.univ.filter fun j => ((pc j).wrote = true)) := by
    ext j
    by_cases hj : j = i
    · subst hj; simp [updPc, hp]
    · simp [updPc, hj]
  rw [hset, Finset.card_insert_of_not_mem (by simp [hold])]

/-- One interleaving event preserves the invariant: the value is the
mutation iterated once per completed write-back, at most one task holds
the lock, and a task that has read holds the current value. -/
theorem cinv_preserved {T : Type} {f : T → T} {v₀ : T} {n : Nat} {s t : CSys T n}
    (hstep : CStep f s t)
    (ih1 : s.value = f^[wroteCount s] v₀)
    (ih2 : ∀ i j : Fin n, (s.pc i).holds = true → (s.pc j).holds = true → i = j)
    (ih3 : ∀ (i : Fin n) (l : T), s.pc i = .readv l → l = s.value) :
    t.value = f^[wroteCount t] v₀ ∧
    (∀ i j : Fin n, (t.pc i).holds = true → (t.pc j).holds = true → i = j) ∧
    (∀ (i : Fin n) (l : T), t.pc i = .readv l → l = t.value) := by
  cases hstep with
  | acquire i hpc hfree =>
      refine ⟨?_, fun a b ha hb => ?_, fun a l hl => ?_⟩
      · rw [wroteCount_updPc_eq s.value s.value s.pc i TPc.acquired (by rw [hpc]; rfl)]
        exact ih1
      · have hai : a = i := by
          by_contra hai
          have : (s.pc a).holds = false := hfree a
          simp [updPc, hai] at ha
          simp_all
        have hbi : b = i := by
          by_contra hbi
          have : (s.pc b).holds = false := hfree b
          simp [updPc, hbi] at hb
          simp_all
        rw [hai, hbi]
      · by_cases hai : a = i
        · subst hai; simp [updPc] at hl
        · simp [updPc, hai] at hl
          exact ih3 a l hl
  | readv i hpc =>
      refine ⟨?_, fun a b ha hb => ?_, fun a l hl => ?_⟩
      · rw [wroteCount_updPc_eq s.value s.value s.pc i (TPc.readv s.value)
          (by rw [hpc]; rfl)]
        exact ih1
      · have hha : (s.pc a).holds = true := by
          by_cases hai : a = i
          · subst hai; rw [hpc]; rfl
          · simpa [updPc, hai] using ha
        have hhb : (s.pc b).holds = true := by
          by_cases hbi : b = i
          · subst hbi; rw [hpc]; rfl
          · simpa [updPc, hbi] using hb
        exact ih2 a b hha hhb
      · by_cases hai : a = i
        · subst hai
          have hl' : updPc s.pc a (TPc.readv s.value) a = TPc.readv l := hl
          rw [show updPc s.pc a (TPc.readv s.value) a = TPc.readv s.value from
            if_pos rfl] at hl'
          injection hl' with h
          exact h.symm
        · simp [updPc, hai] at hl
          exact ih3 a l hl
  | writev i l hpc =>
      have hlv : l = s.value := ih3 i l hpc
      refine ⟨?_, fun a b ha hb => ?_, fun a m hm => ?_⟩
      · rw [wroteCount_updPc_incr (f l) s.value s.pc i TPc.written rfl
          (by rw [hpc]; rfl), Function.iterate_succ_apply', ← ih1, hlv]
      · have hha : (s.pc a).holds = true := by
          by_cases hai : a = i
          · subst hai; rw [hpc]; rfl
          · simpa [updPc, hai] using ha
        have hhb : (s.pc b).holds = true := by
          by_cases hbi : b = i
          · subst hbi; rw [hpc]; rfl
          · simpa [updPc, hbi] using hb
        exact ih2 a b hha hhb
      · by_cases hai : a = i
        · subst hai; simp [updPc] at hm
        · simp [updPc, hai] at hm
          have : a = i := ih2 a i (by rw [hm]; rfl) (by rw [hpc]; rfl)
          exact absurd this hai
  | release i hpc =>
      refine ⟨?_, fun a b ha hb => ?_, fun a l hl => ?_⟩
      · rw [wroteCount_updPc_eq s.value s.value s.pc i TPc.done (by rw [hpc]; rfl)]
        exact ih1
      · have hai : a ≠ i := by
          intro hai; subst hai; simp [updPc, TPc.holds] at ha
        have hbi : b ≠ i := by
          intro hbi; subst hbi; simp [updPc, TPc.holds] at hb
        exact ih2 a b (by simpa [updPc, hai] using ha) (by simpa [updPc, hbi] using hb)
      · by_cases hai : a = i
        · subst hai; simp [updPc] at hl
        · simp [updPc, hai] at hl
          exact ih3 a l hl

/-- Inductive invariant of the concurrent updates, at every reachable
state. -/
theorem creach_invariant {T : Type} {f : T → T} {v₀ : T} {n : Nat} {s : CSys T n}
    (h : CReach f v₀ n s) :
    s.value = f^[wroteCount s] v₀ ∧
    (∀ i j : Fin n, (s.pc i).holds = true → (s.pc j).holds = true → i = j) ∧
    (∀ (i : Fin n) (l : T), s.pc i = .readv l → l = s.value) := by
  induction h with
  | init =>
      refine ⟨?_, fun i j hi _ => ?_, fun i l hl => ?_⟩
      · have : wroteCount (⟨v₀, fun _ => TPc.start⟩ : CSys T n) = 0 := by
          simp [wroteCount, TPc.wrote]
        rw [this]; rfl
      · simp [TPc.holds] at hi
      · cases hl
  | step _ hstep ih => exact cinv_preserved hstep ih.1 ih.2.1 ih.2.2

/-- Once every task finished, the value is the mutation iterated `n`
times from the initial value. -/
theorem creach_final_value {T : Type} {f : T → T} {v₀ : T} {n : Nat}
    {s : CSys T n} (h : CReach f v₀ n s) (hdone : ∀ i : Fin n, s.pc i = TPc.done) :
    s.value = f^[n] v₀ := by
  obtain ⟨h1, -, -⟩ := creach_invariant h
  rw [h1]
  congr 1
  have : (Finset.univ.filter fun i : Fin n => ((s.pc i).wrote = true)) =
      Finset.univ := by
    ext j
    simp [hdone j, TPc.wrote]
  rw [wroteCount, this, Finset.card_univ, Fintype.card_fin]

/-- Iterating the increment `n` times adds `n`. -/
theorem iterate_add_one (n : Nat) : ∀ x : Nat, (fun y : Nat => y + 1)^[n] x = x + n := by
  induction n with
  | zero => intro x; rfl
  | succ m ih =>
      intro x
      rw [Function.iterate_succ_apply, ih]
      omega

/-- C7: under every interleaving, once `n` concurrent tasks each executed
`update (· + 1)` exactly once on a cell initialized to `0`, the final
value is exactly `n` — no update is lost — and it equals the sequential
composition of the `n` mutations. -/
theorem c7_no_lost_updates {n : Nat} {s : CSys Nat n}
    (h : CReach (fun x : Nat => x + 1) 0 n s)
    (hdone : ∀ i : Fin n, s.pc i = TPc.done) :
    s.value = n ∧ s.value = (fun x : Nat => x + 1)^[n] 0 := by
  have hfin := creach_final_value h hdone
  rw [iterate_add_one n 0] at hfin
  exact ⟨by omega, by rw [iterate_add_one n 0]; omega⟩

/-- Witness for C7 with one task running `update (· + 1)` to completion
from `A::new 0`. -/
theorem c7_no_lost_updates_witness :
    (CReach (fun x : Nat => x + 1) 0 1
        ⟨1, updPc (updPc (updPc (updPc (fun _ => TPc.start) 0 TPc.acquired) 0
          (TPc.readv 0)) 0 TPc.written) 0 TPc.done⟩ ∧
      ∀ i : Fin 1,
        (⟨1, updPc (updPc (updPc (updPc (fun _ => TPc.start) 0 TPc.acquired) 0
          (TPc.readv 0)) 0 TPc.written) 0 TPc.done⟩ : CSys Nat 1).pc i = TPc.done) ∧
    ((⟨1, updPc (updPc (updPc (updPc (fun _ => TPc.start) 0 TPc.acquired) 0
        (TPc.readv 0)) 0 TPc.written) 0 TPc.done⟩ : CSys Nat 1).value = 1 ∧
      (⟨1, updPc (updPc (updPc (updPc (fun _ => TPc.start) 0 TPc.acquired) 0
        (TPc.readv 0)) 0 TPc.written) 0 TPc.done⟩ : CSys Nat 1).value =
        (fun x : Nat => x + 1)^[1] 0) := by
  have h1 : CReach (fun x : Nat => x + 1) 0 1
      ⟨0, updPc (fun _ => TPc.start) 0 TPc.acquired⟩ :=
    CReach.step CReach.init (CStep.acquire _ 0 rfl (by decide))
  have h2 : CReach (fun x : Nat => x + 1) 0 1
      ⟨0, updPc (updPc (fun _ => TPc.start) 0 TPc.acquired) 0 (TPc.readv 0)⟩ :=
    CReach.step h1 (CStep.readv _ 0 (by decide))
  have h3 : CReach (fun x : Nat => x + 1) 0 1
      ⟨1, updPc (updPc (updPc (fun _ => TPc.start) 0 TPc.acquired) 0
        (TPc.readv 0)) 0 TPc.written⟩ :=
    CReach.step h2 (CStep.writev _ 0 0 (by decide))
  have h4 : CReach (fun x : Nat => x + 1) 0 1
      ⟨1, updPc (updPc (updPc (updPc (fun _ => TPc.start) 0 TPc.acquired) 0
        (TPc.readv 0)) 0 TPc.written) 0 TPc.done⟩ :=
    CReach.step h3 (CStep.release _ 0 (by decide))
  exact ⟨⟨h4, by decide⟩, c7_no_lost_updates h4 (by decide)⟩

end Tspawn
